import Mathlib

/-!
# Verification of the videosplitter repository

Shallow embedding of the browser-side video splitter: the processing module
(`lib/video-processor.ts`), the configuration validation in the app component
(`handleStartProcessing`), the upload surface (`video-uploader`,
`handleDrop` / `handleFileChange`), and the download-name logic of the
results viewer (`handleDownload`).

Times (seconds) carried by JS numbers are modelled by rationals: the code
only compares and linearly combines them.  The browser interactions that
`processVideos` orchestrates (element loading, stream capture, recording)
are modelled by an explicit environment `Env` recording their outcomes; the
orchestration logic itself — loop structure, cancellation checks, progress
reporting, error propagation, the single/multi segment split — is embedded
from the source.  A run is represented by the list of observable events it
emits together with its `Except` result.
-/

namespace VideoSplitter

/-- A time range to cut from the source video (`lib/types.ts`,
`VideoSegment`). -/
structure VideoSegment where
  start : ℚ
  «end» : ℚ
deriving DecidableEq

/-- One output configuration: `{ name, segments }` as the app passes it to
`processVideos`. -/
structure VideoConfig where
  name : String
  segments : List VideoSegment
deriving DecidableEq

/-- A browser `Blob` produced during processing: either the recording of one
segment extraction, or the re-recording of several blobs played
back-to-back. -/
inductive Blob where
  | extracted (start «end» : ℚ)
  | combined (parts : List Blob)

/-- Result record (`OutputVideo` in `lib/types.ts`); the object URL is a
host-generated handle and is not modelled. -/
structure OutputVideo where
  name : String
  blob : Blob
  format : String

/-- Observable events of a run of the processing module: writes and reads of
the module-level `isCancelled` flag, calls to `extractVideoSegment`,
invocations of the progress callback, and entries into the re-recording
path of `combineVideoSegments`. -/
inductive Event where
  | flagWrite (value : Bool)
  | flagRead (value : Bool)
  | extractCall (start «end» : ℚ)
  | progress (value : ℚ)
  | combineCall (blobs : List Blob)

/-- Host environment of one run: outcomes of the browser interactions that
`video-processor.ts` orchestrates.  `cancelAtCheck i` is the value the
module flag `isCancelled` holds when the configuration loop reads it at
index `i` (the flag is written between iterations only by
`cancelProcessing`). -/
structure Env where
  loadOk : Bool
  extract : VideoSegment → Except String Blob
  combineRun : List Blob → Except String Blob
  cancelAtCheck : Nat → Bool
  format : String

/-- `combineVideoSegments` (video-processor.ts:396-405): error on an empty
list, pass a singleton through unchanged, otherwise play the blobs
back-to-back into a recorder — an interaction whose outcome the
environment determines. -/
def combineVideoSegments (env : Env) (segmentBlobs : List Blob) :
    Except String Blob :=
  match segmentBlobs with
  | [] => .error "No segments to combine"
  | [b] => .ok b
  | _ => env.combineRun segmentBlobs

/-- The progress value reported after a segment completes
(video-processor.ts:104): `(processedSegments / totalSegments) * 100`. -/
def progVal (processedSegments totalSegments : Nat) : ℚ :=
  ((processedSegments : ℚ) / (totalSegments : ℚ)) * 100

/-- The inner segment loop of `processVideos` (video-processor.ts:93-110):
extract each segment in order, push its blob, and report progress after
each completed segment; an extraction error is rethrown.  Returns the
events emitted and, on success, the blobs with the updated
`processedSegments` counter. -/
def extractSegments (env : Env) (segs : List VideoSegment)
    (processedSegments totalSegments : Nat) :
    List Event × Except String (List Blob × Nat) :=
  match segs with
  | [] => ([], .ok ([], processedSegments))
  | seg :: rest =>
    match env.extract seg with
    | .error e => ([.extractCall seg.start seg.«end»], .error e)
    | .ok blob =>
      let processed := processedSegments + 1
      let prog := progVal processed totalSegments
      let r := extractSegments env rest processed totalSegments
      (.extractCall seg.start seg.«end» :: .progress prog :: r.1,
        match r.2 with
        | .error e => .error e
        | .ok (blobs, p) => .ok (blob :: blobs, p))

/-- The per-configuration body of `processVideos`
(video-processor.ts:87-144): extract all segments, then — testing
`segmentBlobs.length === 1` — either use the single blob directly (no
combination) or call `combineVideoSegments`, rewrapping a combine error
with the message prefix the code adds. -/
def processOneConfig (env : Env) (config : VideoConfig)
    (processedSegments totalSegments : Nat) :
    List Event × Except String (OutputVideo × Nat) :=
  let r := extractSegments env config.segments processedSegments totalSegments
  match r.2 with
  | .error e => (r.1, .error e)
  | .ok (segmentBlobs, processed) =>
    match segmentBlobs with
    | [finalBlob] =>
      (r.1, .ok ({ name := config.name, blob := finalBlob,
                   format := env.format }, processed))
    | _ =>
      (r.1 ++ [.combineCall segmentBlobs],
        match combineVideoSegments env segmentBlobs with
        | .error e => .error ("Failed to combine video segments: " ++ e)
        | .ok finalBlob =>
          .ok ({ name := config.name, blob := finalBlob,
                 format := env.format }, processed))

/-- The configuration loop of `processVideos` (video-processor.ts:77-145):
the cancellation flag is read once at the top of each iteration; a set
flag raises `"Processing cancelled"`, otherwise the configuration is
processed and its output appended. -/
def processLoop (env : Env) (configs : List VideoConfig)
    (configIndex processedSegments totalSegments : Nat) :
    List Event × Except String (List OutputVideo) :=
  match configs with
  | [] => ([], .ok [])
  | config :: rest =>
    let cancelled := env.cancelAtCheck configIndex
    if cancelled then
      ([.flagRead cancelled], .error "Processing cancelled")
    else
      let r := processOneConfig env config processedSegments totalSegments
      match r.2 with
      | .error e => (.flagRead cancelled :: r.1, .error e)
      | .ok (out, processed) =>
        let next := processLoop env rest (configIndex + 1) processed
          totalSegments
        (.flagRead cancelled :: r.1 ++ next.1,
          match next.2 with
          | .error e => .error e
          | .ok outs => .ok (out :: outs))

/-- `totalSegments` (video-processor.ts:73): segment count summed over all
configurations by a fold. -/
def totalSegmentsOf (configs : List VideoConfig) : Nat :=
  configs.foldl (fun total config => total + config.segments.length) 0

/-- `processVideos` (video-processor.ts:35-158): reset the cancellation flag
to `false`, await the source load (failure: `"Failed to load video"`),
then run the configuration loop.  Returns the event trace alongside the
result. -/
def processVideos (env : Env) (configs : List VideoConfig) :
    List Event × Except String (List OutputVideo) :=
  if env.loadOk then
    let r := processLoop env configs 0 0 (totalSegmentsOf configs)
    (.flagWrite false :: r.1, r.2)
  else
    ([.flagWrite false], .error "Failed to load video")

/-- `cancelProcessing` (video-processor.ts:554-557): sets the module flag to
`true`; returns the new flag value and the one write it performs. -/
def cancelProcessing (_isCancelled : Bool) : Bool × List Event :=
  (true, [.flagWrite true])

/-! ## Configuration validation (`handleStartProcessing`, app component) -/

/-- `!config.name.trim()`: the JS-trimmed name is the empty string exactly
when every character of the name is whitespace (this covers the empty
name). -/
def nameBlank (name : String) : Bool :=
  name.data.all Char.isWhitespace

/-- The segment checks of `handleStartProcessing` (part_001 lines 392-410),
in source order: `segment.start >= segment.end` rejects with the
invalid-range message, then `segment.end > videoDuration` rejects with the
duration message.  `none` means all segments passed. -/
def findSegmentError (name : String) (segs : List VideoSegment)
    (videoDuration : ℚ) : Option String :=
  match segs with
  | [] => none
  | segment :: rest =>
    if segment.start ≥ segment.«end» then
      some ("Invalid time range in \"" ++ name ++
        "\": start must be before end")
    else if segment.«end» > videoDuration then
      some ("End time exceeds video duration in \"" ++ name ++ "\"")
    else findSegmentError name rest videoDuration

/-- The per-configuration validation of `handleStartProcessing` (part_001
lines 373-411): blank name first, then empty segment list, then the
segment range checks. -/
def findConfigError (config : VideoConfig) (videoDuration : ℚ) :
    Option String :=
  if nameBlank config.name then some "All videos must have a name"
  else if config.segments.length = 0 then
    some ("Video \"" ++ config.name ++ "\" has no segments")
  else findSegmentError config.name config.segments videoDuration

/-- The validation loop over all configurations: the first error wins, as
each failing check returns from the handler immediately. -/
def findConfigsError (configs : List VideoConfig) (videoDuration : ℚ) :
    Option String :=
  match configs with
  | [] => none
  | config :: rest =>
    match findConfigError config videoDuration with
    | some e => some e
    | none => findConfigsError rest videoDuration

/-- `handleStartProcessing` (part_001 lines 362-435): when validation
reports an error the handler returns before `processVideos` is ever
called (`none`, no output produced); otherwise processing runs and its
trace and result are those of `processVideos`. -/
def handleStartProcessing (env : Env) (configs : List VideoConfig)
    (videoDuration : ℚ) :
    Option (List Event × Except String (List OutputVideo)) :=
  match findConfigsError configs videoDuration with
  | some _ => none
  | none => some (processVideos env configs)

/-! ## Upload surface (`video-uploader`, part_000) -/

/-- A DOM `File` as the uploader sees it: only its MIME type string
matters here. -/
structure DomFile where
  type : String
deriving DecidableEq

/-- `pre` is a prefix of `l` — executable model of JS
`String.prototype.startsWith` on character lists. -/
def charsStartWith : List Char → List Char → Bool
  | _, [] => true
  | [], _ :: _ => false
  | b :: l, a :: pre => a == b && charsStartWith l pre

/-- JS `s.startsWith(pre)`. -/
def strStartsWith (s pre : String) : Bool :=
  charsStartWith s.data pre.data

/-- `handleDrop` (part_000 lines 29-39): with a nonempty dropped file list,
the first file is passed to `onVideoUpload` only when its MIME type
starts with `"video/"`.  `some f` means the upload callback was invoked
with `f`. -/
def handleDrop (files : List DomFile) : Option DomFile :=
  match files with
  | [] => none
  | file :: _ =>
    if strStartsWith file.type "video/" then some file else none

/-- `handleFileChange` (part_000 lines 41-45): with a nonempty selected
file list, the first file is passed to `onVideoUpload` unconditionally —
this path performs no MIME-type check in code (the `accept="video/*"`
attribute only configures the picker dialog). -/
def handleFileChange (files : List DomFile) : Option DomFile :=
  match files with
  | [] => none
  | file :: _ => some file

/-! ## Download names (`handleDownload`, results viewer, part_001) -/

/-- JS `s.includes(pat)`: `pat` occurs as a substring of `s`. -/
def charsInclude (l pat : List Char) : Bool :=
  match l with
  | [] => pat.isEmpty
  | c :: rest => charsStartWith (c :: rest) pat || charsInclude rest pat

/-- JS `s.includes(pat)` on strings. -/
def strIncludes (s pat : String) : Bool :=
  charsInclude s.data pat.data

/-- JS truthiness of the optional `format` field: `undefined` and the empty
string are falsy. -/
def formatTruthy : Option String → Bool
  | none => false
  | some f => !(f == "")

/-- The record `handleDownload` consumes: the configured name, the optional
`format` field, and the blob's declared media type (`video.blob.type`). -/
structure ResultVideo where
  name : String
  format : Option String
  blobType : String

/-- The file name computed by `handleDownload` (part_001 lines 28-61):
extension defaults to `"mp4"`, overridden by the format-field chain when
the format is truthy, else by the blob-type chain when the blob type is
nonempty; the download name is `` `${video.name}.${extension}` ``. -/
def handleDownloadName (video : ResultVideo) : String :=
  let extension := "mp4"
  let extension :=
    if formatTruthy video.format then
      let f := video.format.getD ""
      if strIncludes f "webm" then "webm"
      else if strIncludes f "ogg" then "ogg"
      else if strIncludes f "quicktime" then "mov"
      else if strIncludes f "m4a" then "m4a"
      else extension
    else if !(video.blobType == "") then
      if strIncludes video.blobType "webm" then "webm"
      else if strIncludes video.blobType "ogg" then "ogg"
      else if strIncludes video.blobType "quicktime" then "mov"
      else extension
    else extension
  video.name ++ "." ++ extension

/-- The download-name rule as the specification states it: the extension is
inferred from the result's `format` field when that field is present,
otherwise from the blob's declared media type, defaulting to `mp4` when
no known marker matches. -/
def claimedDownloadName (video : ResultVideo) : String :=
  match video.format with
  | some f =>
    video.name ++ "." ++
      (if strIncludes f "webm" then "webm"
       else if strIncludes f "ogg" then "ogg"
       else if strIncludes f "quicktime" then "mov"
       else if strIncludes f "m4a" then "m4a"
       else "mp4")
  | none =>
    video.name ++ "." ++
      (if strIncludes video.blobType "webm" then "webm"
       else if strIncludes video.blobType "ogg" then "ogg"
       else if strIncludes video.blobType "quicktime" then "mov"
       else "mp4")


/-! ## Expected traces of successful runs -/

/-- The blobs a fully successful run records for `segs`. -/
def happyBlobs (segs : List VideoSegment) : List Blob :=
  segs.map fun s => .extracted s.start s.«end»

/-- The events the segment loop emits when every extraction succeeds. -/
def segTrace (segs : List VideoSegment) (p T : Nat) : List Event :=
  match segs with
  | [] => []
  | s :: rest =>
    .extractCall s.start s.«end» :: .progress (progVal (p + 1) T) ::
      segTrace rest (p + 1) T

/-- The events one configuration emits in a fully successful run: its
segment extractions, then — unless it has exactly one segment — one
combine call on all its blobs. -/
def configEvents (c : VideoConfig) (p T : Nat) : List Event :=
  match c.segments with
  | [_] => segTrace c.segments p T
  | _ => segTrace c.segments p T ++ [.combineCall (happyBlobs c.segments)]

/-- The output record a fully successful run produces for one
configuration. -/
def configOutput (format : String) (c : VideoConfig) : OutputVideo :=
  { name := c.name
    blob :=
      match c.segments with
      | [s] => .extracted s.start s.«end»
      | _ => .combined (happyBlobs c.segments)
    format := format }

/-- The events the configuration loop emits in a fully successful run. -/
def happyLoopTrace (configs : List VideoConfig) (p T : Nat) : List Event :=
  match configs with
  | [] => []
  | c :: rest =>
    .flagRead false :: configEvents c p T ++
      happyLoopTrace rest (p + c.segments.length) T

/-- Total number of segments in a configuration list (recursion form of
`totalSegmentsOf`). -/
def segsCount : List VideoConfig → Nat
  | [] => 0
  | c :: rest => c.segments.length + segsCount rest

/-- All segments of a configuration list, in processing order. -/
def allSegments : List VideoConfig → List VideoSegment
  | [] => []
  | c :: rest => c.segments ++ allSegments rest

theorem totalSegmentsOf_eq_segsCount (configs : List VideoConfig) :
    totalSegmentsOf configs = segsCount configs := by
  have key : ∀ (l : List VideoConfig) (a : Nat),
      l.foldl (fun total config => total + config.segments.length) a =
        a + segsCount l := by
    intro l
    induction l with
    | nil => intro a; simp [segsCount]
    | cons c rest ih =>
      intro a
      simp only [List.foldl_cons, segsCount, ih]
      omega
  simpa [totalSegmentsOf] using key configs 0

/-! ## The segment loop on a cooperating host -/

theorem extractSegments_happy (env : Env)
    (hE : ∀ s, env.extract s = .ok (.extracted s.start s.«end»)) :
    ∀ (segs : List VideoSegment) (p T : Nat),
    extractSegments env segs p T =
      (segTrace segs p T, .ok (happyBlobs segs, p + segs.length)) := by
  intro segs
  induction segs with
  | nil => intro p T; simp [extractSegments, segTrace, happyBlobs]
  | cons s rest ih =>
    intro p T
    have harith : p + 1 + rest.length = p + (rest.length + 1) := by omega
    simp [extractSegments, hE s, segTrace, happyBlobs, ih (p + 1) T, harith]

theorem processOneConfig_happy (env : Env)
    (hE : ∀ s, env.extract s = .ok (.extracted s.start s.«end»))
    (hC : ∀ bs, env.combineRun bs = .ok (.combined bs))
    (c : VideoConfig) (hne : c.segments ≠ []) (p T : Nat) :
    processOneConfig env c p T =
      (configEvents c p T,
        .ok (configOutput env.format c, p + c.segments.length)) := by
  unfold processOneConfig
  rw [extractSegments_happy env hE]
  match hsegs : c.segments with
  | [] => exact absurd hsegs hne
  | [s] =>
    simp [happyBlobs, configEvents, configOutput, hsegs]
  | s₁ :: s₂ :: rest =>
    simp [happyBlobs, configEvents, configOutput, hsegs,
      combineVideoSegments, hC]

/-! ## The configuration loop on a cooperating host -/

theorem processLoop_happy (env : Env)
    (hE : ∀ s, env.extract s = .ok (.extracted s.start s.«end»))
    (hC : ∀ bs, env.combineRun bs = .ok (.combined bs)) :
    ∀ (configs : List VideoConfig) (i p T : Nat),
    (∀ j, j < configs.length → env.cancelAtCheck (i + j) = false) →
    (∀ c ∈ configs, c.segments ≠ []) →
    processLoop env configs i p T =
      (happyLoopTrace configs p T,
        .ok (configs.map (configOutput env.format))) := by
  intro configs
  induction configs with
  | nil => intro i p T _ _; simp [processLoop, happyLoopTrace]
  | cons c rest ih =>
    intro i p T hcancel hne
    have h0 : env.cancelAtCheck i = false := by
      have := hcancel 0 (by simp)
      simpa using this
    have hrest : ∀ j, j < rest.length →
        env.cancelAtCheck (i + 1 + j) = false := by
      intro j hj
      have := hcancel (j + 1) (by simp; omega)
      simpa [Nat.add_assoc, Nat.add_comm 1 j] using this
    unfold processLoop
    rw [processOneConfig_happy env hE hC c (hne c (by simp)) p T]
    simp [h0, happyLoopTrace,
      ih (i + 1) (p + c.segments.length) T hrest
        (fun c' hc' => hne c' (by simp [hc']))]

theorem processLoop_cancelled (env : Env)
    (hE : ∀ s, env.extract s = .ok (.extracted s.start s.«end»))
    (hC : ∀ bs, env.combineRun bs = .ok (.combined bs)) :
    ∀ (pre rest : List VideoConfig) (i p T : Nat), rest ≠ [] →
    (∀ j, j < pre.length → env.cancelAtCheck (i + j) = false) →
    env.cancelAtCheck (i + pre.length) = true →
    (∀ c ∈ pre, c.segments ≠ []) →
    processLoop env (pre ++ rest) i p T =
      (happyLoopTrace pre p T ++ [.flagRead true],
        .error "Processing cancelled") := by
  intro pre
  induction pre with
  | nil =>
    intro rest i p T hrest hfalse htrue _
    match rest with
    | [] => exact absurd rfl hrest
    | r :: rest' =>
      have : env.cancelAtCheck i = true := by simpa using htrue
      simp [processLoop, this, happyLoopTrace]
  | cons c pre' ih =>
    intro rest i p T hrest hfalse htrue hne
    have h0 : env.cancelAtCheck i = false := by
      have := hfalse 0 (by simp)
      simpa using this
    have hfalse' : ∀ j, j < pre'.length →
        env.cancelAtCheck (i + 1 + j) = false := by
      intro j hj
      have := hfalse (j + 1) (by simp; omega)
      simpa [Nat.add_assoc, Nat.add_comm 1 j] using this
    have htrue' : env.cancelAtCheck (i + 1 + pre'.length) = true := by
      have harith : i + 1 + pre'.length = i + (c :: pre').length := by
        simp; omega
      rw [harith]
      exact htrue
    have hstep := ih rest (i + 1) (p + c.segments.length) T hrest hfalse'
      htrue' (fun c' hc' => hne c' (by simp [hc']))
    rw [List.cons_append]
    unfold processLoop
    rw [processOneConfig_happy env hE hC c (hne c (by simp)) p T]
    simp [h0, happyLoopTrace, hstep]

/-! ## Trace projections -/

/-- The progress-callback values occurring in a trace, in order. -/
def progressValuesOf : List Event → List ℚ
  | [] => []
  | .progress q :: rest => q :: progressValuesOf rest
  | _ :: rest => progressValuesOf rest

/-- The `extractVideoSegment` calls occurring in a trace, as (start, end)
pairs in order. -/
def extractCallsOf : List Event → List (ℚ × ℚ)
  | [] => []
  | .extractCall s t :: rest => (s, t) :: extractCallsOf rest
  | _ :: rest => extractCallsOf rest

/-- The argument lists of the `combineVideoSegments` re-recording calls
occurring in a trace, in order. -/
def combineCallsOf : List Event → List (List Blob)
  | [] => []
  | .combineCall bs :: rest => bs :: combineCallsOf rest
  | _ :: rest => combineCallsOf rest

/-- The writes to the module cancellation flag occurring in a trace. -/
def flagWritesOf : List Event → List Bool
  | [] => []
  | .flagWrite b :: rest => b :: flagWritesOf rest
  | _ :: rest => flagWritesOf rest

/-- The reads of the module cancellation flag occurring in a trace. -/
def flagReadsOf : List Event → List Bool
  | [] => []
  | .flagRead b :: rest => b :: flagReadsOf rest
  | _ :: rest => flagReadsOf rest

theorem progressValuesOf_append (l l' : List Event) :
    progressValuesOf (l ++ l') =
      progressValuesOf l ++ progressValuesOf l' := by
  induction l with
  | nil => rfl
  | cons e rest ih => cases e <;> simp [progressValuesOf, ih]

theorem extractCallsOf_append (l l' : List Event) :
    extractCallsOf (l ++ l') = extractCallsOf l ++ extractCallsOf l' := by
  induction l with
  | nil => rfl
  | cons e rest ih => cases e <;> simp [extractCallsOf, ih]

theorem combineCallsOf_append (l l' : List Event) :
    combineCallsOf (l ++ l') = combineCallsOf l ++ combineCallsOf l' := by
  induction l with
  | nil => rfl
  | cons e rest ih => cases e <;> simp [combineCallsOf, ih]

theorem flagWritesOf_append (l l' : List Event) :
    flagWritesOf (l ++ l') = flagWritesOf l ++ flagWritesOf l' := by
  induction l with
  | nil => rfl
  | cons e rest ih => cases e <;> simp [flagWritesOf, ih]

theorem flagReadsOf_append (l l' : List Event) :
    flagReadsOf (l ++ l') = flagReadsOf l ++ flagReadsOf l' := by
  induction l with
  | nil => rfl
  | cons e rest ih => cases e <;> simp [flagReadsOf, ih]

/-- The progress values a fully successful stretch of `n` segments reports,
starting with `processedSegments = p`. -/
def progList (p T n : Nat) : List ℚ :=
  match n with
  | 0 => []
  | m + 1 => progVal (p + 1) T :: progList (p + 1) T m

theorem progList_add :
    ∀ (a b p T : Nat), progList p T (a + b) =
      progList p T a ++ progList (p + a) T b := by
  intro a
  induction a with
  | zero => intro b p T; simp [progList]
  | succ m ih =>
    intro b p T
    have harith : m + 1 + b = (m + b) + 1 := by omega
    rw [harith]
    simp only [progList, ih b (p + 1) T, List.cons_append]
    have harith2 : p + 1 + m = p + (m + 1) := by omega
    rw [harith2]

theorem progList_eq_range_map :
    ∀ (n p T : Nat), progList p T n =
      (List.range n).map (fun k => progVal (p + k + 1) T) := by
  intro n
  induction n with
  | zero => intro p T; simp [progList]
  | succ m ih =>
    intro m_1 T
    simp only [progList, List.range_succ_eq_map, List.map_cons,
      List.map_map, ih (m_1 + 1) T]
    refine congrArg₂ _ (by simp) ?_
    apply List.map_congr_left
    intro k _
    simp only [Function.comp_apply, Nat.succ_eq_add_one]
    have : m_1 + 1 + k + 1 = m_1 + (k + 1) + 1 := by omega
    rw [this]

/-! ## Projections of the expected traces -/

theorem progress_segTrace :
    ∀ (segs : List VideoSegment) (p T : Nat),
    progressValuesOf (segTrace segs p T) = progList p T segs.length := by
  intro segs
  induction segs with
  | nil => intro p T; simp [segTrace, progressValuesOf, progList]
  | cons s rest ih =>
    intro p T
    simp [segTrace, progressValuesOf, progList, ih (p + 1) T]

theorem progress_configEvents (c : VideoConfig) (p T : Nat) :
    progressValuesOf (configEvents c p T) =
      progList p T c.segments.length := by
  unfold configEvents
  match c.segments with
  | [s] => exact progress_segTrace [s] p T
  | [] => simp [segTrace, progressValuesOf, progList]
  | s₁ :: s₂ :: rest =>
    rw [progressValuesOf_append, progress_segTrace]
    simp [progressValuesOf]

theorem progress_happyLoopTrace :
    ∀ (configs : List VideoConfig) (p T : Nat),
    progressValuesOf (happyLoopTrace configs p T) =
      progList p T (segsCount configs) := by
  intro configs
  induction configs with
  | nil => intro p T; simp [happyLoopTrace, progressValuesOf, progList]
  | cons c rest ih =>
    intro p T
    simp only [happyLoopTrace, segsCount]
    rw [show Event.flagRead false :: configEvents c p T ++
        happyLoopTrace rest (p + c.segments.length) T =
      Event.flagRead false :: (configEvents c p T ++
        happyLoopTrace rest (p + c.segments.length) T) from rfl]
    simp only [progressValuesOf, progressValuesOf_append,
      progress_configEvents, ih (p + c.segments.length) T]
    rw [progList_add]

theorem extract_segTrace :
    ∀ (segs : List VideoSegment) (p T : Nat),
    extractCallsOf (segTrace segs p T) =
      segs.map (fun s => (s.start, s.«end»)) := by
  intro segs
  induction segs with
  | nil => intro p T; simp [segTrace, extractCallsOf]
  | cons s rest ih =>
    intro p T
    simp [segTrace, extractCallsOf, ih (p + 1) T]

theorem extract_configEvents (c : VideoConfig) (p T : Nat) :
    extractCallsOf (configEvents c p T) =
      c.segments.map (fun s => (s.start, s.«end»)) := by
  unfold configEvents
  match c.segments with
  | [s] => exact extract_segTrace [s] p T
  | [] => simp [segTrace, extractCallsOf]
  | s₁ :: s₂ :: rest =>
    rw [extractCallsOf_append, extract_segTrace]
    simp [extractCallsOf]

theorem extract_happyLoopTrace :
    ∀ (configs : List VideoConfig) (p T : Nat),
    extractCallsOf (happyLoopTrace configs p T) =
      (allSegments configs).map (fun s => (s.start, s.«end»)) := by
  intro configs
  induction configs with
  | nil => intro p T; simp [happyLoopTrace, extractCallsOf, allSegments]
  | cons c rest ih =>
    intro p T
    simp only [happyLoopTrace, allSegments, List.map_append]
    rw [show Event.flagRead false :: configEvents c p T ++
        happyLoopTrace rest (p + c.segments.length) T =
      Event.flagRead false :: (configEvents c p T ++
        happyLoopTrace rest (p + c.segments.length) T) from rfl]
    simp only [extractCallsOf, extractCallsOf_append,
      extract_configEvents, ih (p + c.segments.length) T]

theorem combine_segTrace :
    ∀ (segs : List VideoSegment) (p T : Nat),
    combineCallsOf (segTrace segs p T) = [] := by
  intro segs
  induction segs with
  | nil => intro p T; simp [segTrace, combineCallsOf]
  | cons s rest ih =>
    intro p T
    simp [segTrace, combineCallsOf, ih (p + 1) T]

theorem combine_configEvents (c : VideoConfig) (p T : Nat) :
    combineCallsOf (configEvents c p T) =
      if c.segments.length = 1 then [] else [happyBlobs c.segments] := by
  unfold configEvents
  match c.segments with
  | [s] => simpa using combine_segTrace [s] p T
  | [] => simp [segTrace, combineCallsOf]
  | s₁ :: s₂ :: rest =>
    rw [combineCallsOf_append, combine_segTrace]
    simp [combineCallsOf]

theorem combine_happyLoopTrace :
    ∀ (configs : List VideoConfig) (p T : Nat),
    combineCallsOf (happyLoopTrace configs p T) =
      (configs.filter fun c => c.segments.length != 1).map
        (fun c => happyBlobs c.segments) := by
  intro configs
  induction configs with
  | nil => intro p T; simp [happyLoopTrace, combineCallsOf]
  | cons c rest ih =>
    intro p T
    simp only [happyLoopTrace]
    rw [show Event.flagRead false :: configEvents c p T ++
        happyLoopTrace rest (p + c.segments.length) T =
      Event.flagRead false :: (configEvents c p T ++
        happyLoopTrace rest (p + c.segments.length) T) from rfl]
    simp only [combineCallsOf, combineCallsOf_append,
      combine_configEvents, ih (p + c.segments.length) T]
    by_cases h : c.segments.length = 1
    · simp [h, List.filter_cons]
    · simp [h, List.filter_cons]

theorem flagReads_segTrace :
    ∀ (segs : List VideoSegment) (p T : Nat),
    flagReadsOf (segTrace segs p T) = [] := by
  intro segs
  induction segs with
  | nil => intro p T; simp [segTrace, flagReadsOf]
  | cons s rest ih =>
    intro p T
    simp [segTrace, flagReadsOf, ih (p + 1) T]

theorem flagReads_configEvents (c : VideoConfig) (p T : Nat) :
    flagReadsOf (configEvents c p T) = [] := by
  unfold configEvents
  match c.segments with
  | [s] => exact flagReads_segTrace [s] p T
  | [] => simp [segTrace, flagReadsOf]
  | s₁ :: s₂ :: rest =>
    rw [flagReadsOf_append, flagReads_segTrace]
    simp [flagReadsOf]

theorem flagReads_happyLoopTrace :
    ∀ (configs : List VideoConfig) (p T : Nat),
    flagReadsOf (happyLoopTrace configs p T) =
      List.replicate configs.length false := by
  intro configs
  induction configs with
  | nil => intro p T; simp [happyLoopTrace, flagReadsOf]
  | cons c rest ih =>
    intro p T
    simp only [happyLoopTrace, List.length_cons, List.replicate_succ]
    rw [show Event.flagRead false :: configEvents c p T ++
        happyLoopTrace rest (p + c.segments.length) T =
      Event.flagRead false :: (configEvents c p T ++
        happyLoopTrace rest (p + c.segments.length) T) from rfl]
    simp only [flagReadsOf, flagReadsOf_append, flagReads_configEvents,
      ih (p + c.segments.length) T]
    rfl

theorem flagWrites_segTrace :
    ∀ (segs : List VideoSegment) (p T : Nat),
    flagWritesOf (segTrace segs p T) = [] := by
  intro segs
  induction segs with
  | nil => intro p T; simp [segTrace, flagWritesOf]
  | cons s rest ih =>
    intro p T
    simp [segTrace, flagWritesOf, ih (p + 1) T]

theorem flagWrites_configEvents (c : VideoConfig) (p T : Nat) :
    flagWritesOf (configEvents c p T) = [] := by
  unfold configEvents
  match c.segments with
  | [s] => exact flagWrites_segTrace [s] p T
  | [] => simp [segTrace, flagWritesOf]
  | s₁ :: s₂ :: rest =>
    rw [flagWritesOf_append, flagWrites_segTrace]
    simp [flagWritesOf]

theorem flagWrites_happyLoopTrace :
    ∀ (configs : List VideoConfig) (p T : Nat),
    flagWritesOf (happyLoopTrace configs p T) = [] := by
  intro configs
  induction configs with
  | nil => intro p T; simp [happyLoopTrace, flagWritesOf]
  | cons c rest ih =>
    intro p T
    simp only [happyLoopTrace]
    rw [show Event.flagRead false :: configEvents c p T ++
        happyLoopTrace rest (p + c.segments.length) T =
      Event.flagRead false :: (configEvents c p T ++
        happyLoopTrace rest (p + c.segments.length) T) from rfl]
    simp only [flagWritesOf, flagWritesOf_append, flagWrites_configEvents,
      ih (p + c.segments.length) T]
    rfl


/-! ## Validation facts -/

theorem findSegmentError_none_invariant :
    ∀ (name : String) (segs : List VideoSegment) (d : ℚ),
    findSegmentError name segs d = none →
    ∀ s ∈ segs, s.start < s.«end» ∧ s.«end» ≤ d := by
  intro name segs d
  induction segs with
  | nil => intro _ s hs; cases hs
  | cons seg rest ih =>
    intro h s hs
    unfold findSegmentError at h
    by_cases h1 : seg.start ≥ seg.«end»
    · simp [h1] at h
    · by_cases h2 : seg.«end» > d
      · simp [h1, h2] at h
      · simp [h1, h2] at h
        rcases List.mem_cons.mp hs with hs | hs
        · subst hs
          exact ⟨lt_of_not_ge h1, le_of_not_gt h2⟩
        · exact ih h s hs

theorem findConfigError_none_parts (c : VideoConfig) (d : ℚ) :
    findConfigError c d = none →
    nameBlank c.name = false ∧ c.segments ≠ [] ∧
      findSegmentError c.name c.segments d = none := by
  intro h
  unfold findConfigError at h
  by_cases h1 : nameBlank c.name
  · simp [h1] at h
  · by_cases h2 : c.segments.length = 0
    · simp [h1, h2] at h
    · simp [h1, h2] at h
      refine ⟨by simpa using h1, ?_, h⟩
      exact List.length_pos.mp (Nat.pos_of_ne_zero h2)

theorem findConfigsError_none_all :
    ∀ (configs : List VideoConfig) (d : ℚ),
    findConfigsError configs d = none →
    ∀ c ∈ configs, findConfigError c d = none := by
  intro configs d
  induction configs with
  | nil => intro _ c hc; cases hc
  | cons c0 rest ih =>
    intro h c hc
    unfold findConfigsError at h
    rcases he : findConfigError c0 d with _ | e
    · rcases List.mem_cons.mp hc with hc | hc
      · subst hc; exact he
      · rw [he] at h
        exact ih h c hc
    · rw [he] at h
      cases h

/-- Claim C1: before any processing begins every segment of every
configuration satisfies `start < end` and `end ≤ source duration`; if any
segment violates this, `handleStartProcessing` rejects before
`processVideos` is called and no output is produced (`none`), and
conversely whenever processing does start every segment satisfies the
invariant. -/
theorem validation_enforces_segment_invariant (env : Env)
    (configs : List VideoConfig) (videoDuration : ℚ) :
    ((∃ c ∈ configs, ∃ s ∈ c.segments,
        ¬(s.start < s.«end» ∧ s.«end» ≤ videoDuration)) →
      handleStartProcessing env configs videoDuration = none) ∧
    (∀ r, handleStartProcessing env configs videoDuration = some r →
      ∀ c ∈ configs, ∀ s ∈ c.segments,
        s.start < s.«end» ∧ s.«end» ≤ videoDuration) := by
  have key : findConfigsError configs videoDuration = none →
      ∀ c ∈ configs, ∀ s ∈ c.segments,
        s.start < s.«end» ∧ s.«end» ≤ videoDuration := by
    intro h c hc s hs
    have hcfg := findConfigsError_none_all configs videoDuration h c hc
    have hparts := findConfigError_none_parts c videoDuration hcfg
    exact findSegmentError_none_invariant c.name c.segments videoDuration
      hparts.2.2 s hs
  constructor
  · rintro ⟨c, hc, s, hs, hbad⟩
    unfold handleStartProcessing
    rcases h : findConfigsError configs videoDuration with _ | e
    · exact absurd (key h c hc s hs) hbad
    · rfl
  · intro r hr c hc s hs
    unfold handleStartProcessing at hr
    rcases h : findConfigsError configs videoDuration with _ | e
    · exact key h c hc s hs
    · rw [h] at hr
      cases hr

/-- A host environment on which every browser interaction succeeds. -/
def demoEnv : Env where
  loadOk := true
  extract := fun s => .ok (.extracted s.start s.«end»)
  combineRun := fun bs => .ok (.combined bs)
  cancelAtCheck := fun _ => false
  format := "video/mp4"

/-- The spec's example scenario: one configuration "Clip A" with a single
segment (0, 5) of a 10-second source. -/
def demoConfigs : List VideoConfig := [⟨"Clip A", [⟨0, 5⟩]⟩]

theorem validation_enforces_segment_invariant_witness :
    (0 : ℚ) < 5 ∧ (5 : ℚ) ≤ 10 :=
  (validation_enforces_segment_invariant demoEnv demoConfigs 10).2
    (processVideos demoEnv demoConfigs) rfl
    ⟨"Clip A", [⟨0, 5⟩]⟩ (by simp [demoConfigs]) ⟨0, 5⟩ (by simp)

/-- Claim C10: processing is also rejected before it starts when any
configuration has an empty or whitespace-only name or an empty segment
list: `handleStartProcessing` returns `none` and `processVideos` is never
invoked. -/
theorem validation_rejects_blank_name_or_no_segments (env : Env)
    (configs : List VideoConfig) (videoDuration : ℚ) :
    (∃ c ∈ configs, nameBlank c.name = true ∨ c.segments = []) →
    handleStartProcessing env configs videoDuration = none := by
  rintro ⟨c, hc, hbad⟩
  unfold handleStartProcessing
  rcases h : findConfigsError configs videoDuration with _ | e
  · exfalso
    have hcfg := findConfigsError_none_all configs videoDuration h c hc
    have hparts := findConfigError_none_parts c videoDuration hcfg
    rcases hbad with hbad | hbad
    · rw [hparts.1] at hbad
      cases hbad
    · exact hparts.2.1 hbad
  · rfl

theorem validation_rejects_blank_name_or_no_segments_witness :
    (∃ c ∈ [(⟨"   ", [⟨0, 5⟩]⟩ : VideoConfig)],
      nameBlank c.name = true ∨ c.segments = []) ∧
    handleStartProcessing demoEnv [⟨"   ", [⟨0, 5⟩]⟩] 10 = none :=
  ⟨by decide,
    validation_rejects_blank_name_or_no_segments demoEnv
      [⟨"   ", [⟨0, 5⟩]⟩] 10 (by decide)⟩

/-- Claim C9: `combineVideoSegments` fails with "No segments to combine"
on an empty list; on a one-element list it returns that blob unchanged,
and does so for every host environment — the re-recording path is never
entered. -/
theorem combineVideoSegments_empty_and_singleton :
    (∀ env : Env,
      combineVideoSegments env [] = .error "No segments to combine") ∧
    (∀ (env : Env) (b : Blob), combineVideoSegments env [b] = .ok b) ∧
    (∀ (env env' : Env) (b : Blob),
      combineVideoSegments env [b] = combineVideoSegments env' [b]) :=
  ⟨fun _ => rfl, fun _ _ => rfl, fun _ _ _ => rfl⟩


/-! ## Successful runs: outputs, combination calls, progress -/

/-- Claim C2: on a cooperating host, `processVideos` produces exactly one
output record per configuration; a single-segment configuration's output
blob is its one recorded segment blob and no combine call occurs for it,
while each multi-segment configuration triggers exactly one combine call
carrying all of its segment blobs. -/
theorem processVideos_one_output_per_config (env : Env)
    (configs : List VideoConfig)
    (hload : env.loadOk = true)
    (hE : ∀ s, env.extract s = .ok (.extracted s.start s.«end»))
    (hC : ∀ bs, env.combineRun bs = .ok (.combined bs))
    (hcancel : ∀ i, env.cancelAtCheck i = false)
    (hne : ∀ c ∈ configs, c.segments ≠ []) :
    (processVideos env configs).2 =
      .ok (configs.map (configOutput env.format)) ∧
    combineCallsOf (processVideos env configs).1 =
      (configs.filter fun c => c.segments.length != 1).map
        (fun c => happyBlobs c.segments) ∧
    (∀ c ∈ configs, ∀ s, c.segments = [s] →
      configOutput env.format c =
        ⟨c.name, .extracted s.start s.«end», env.format⟩) := by
  have hloop := processLoop_happy env hE hC configs 0 0
    (totalSegmentsOf configs) (fun j _ => hcancel _) hne
  refine ⟨?_, ?_, ?_⟩
  · simp [processVideos, hload, hloop]
  · simp only [processVideos, hload, if_true, hloop]
    rw [show combineCallsOf (Event.flagWrite false ::
        happyLoopTrace configs 0 (totalSegmentsOf configs)) =
      combineCallsOf (happyLoopTrace configs 0 (totalSegmentsOf configs))
      from rfl]
    exact combine_happyLoopTrace configs 0 (totalSegmentsOf configs)
  · intro c _ s hseg
    simp [configOutput, hseg]

/-- The spec's two-configuration example: "Clip A" with one segment and
"Clip B" with two. -/
def demoConfigsAB : List VideoConfig :=
  [⟨"Clip A", [⟨0, 5⟩]⟩, ⟨"Clip B", [⟨0, 3⟩, ⟨6, 9⟩]⟩]

theorem processVideos_one_output_per_config_witness :
    (processVideos demoEnv demoConfigsAB).2 =
      .ok (demoConfigsAB.map (configOutput demoEnv.format)) ∧
    combineCallsOf (processVideos demoEnv demoConfigsAB).1 =
      (demoConfigsAB.filter fun c => c.segments.length != 1).map
        (fun c => happyBlobs c.segments) ∧
    (∀ c ∈ demoConfigsAB, ∀ s, c.segments = [s] →
      configOutput demoEnv.format c =
        ⟨c.name, .extracted s.start s.«end», demoEnv.format⟩) :=
  processVideos_one_output_per_config demoEnv demoConfigsAB rfl
    (fun _ => rfl) (fun _ => rfl) (fun _ => rfl) (by decide)

theorem progList_length : ∀ (n p T : Nat), (progList p T n).length = n := by
  intro n
  induction n with
  | zero => intro p T; rfl
  | succ m ih =>
    intro p T
    simp [progList, ih (p + 1) T]

theorem progVal_mono (T a b : Nat) (hab : a ≤ b) :
    progVal a T ≤ progVal b T := by
  unfold progVal
  rcases Nat.eq_zero_or_pos T with hT | hT
  · subst hT
    simp
  · have hTQ : (0 : ℚ) < (T : ℚ) := by exact_mod_cast hT
    have hcast : (a : ℚ) ≤ (b : ℚ) := by exact_mod_cast hab
    have hdiv : (a : ℚ) / (T : ℚ) ≤ (b : ℚ) / (T : ℚ) := by gcongr
    exact mul_le_mul_of_nonneg_right hdiv (by norm_num)

theorem progVal_eq_100_iff (T n : Nat) (hT : 0 < T) :
    progVal n T = 100 ↔ n = T := by
  unfold progVal
  have hTQ : (T : ℚ) ≠ 0 :=
    ne_of_gt (by exact_mod_cast hT : (0 : ℚ) < (T : ℚ))
  rw [div_mul_eq_mul_div, div_eq_iff hTQ]
  constructor
  · intro h
    have h2 : (n : ℚ) = (T : ℚ) := by linarith
    exact_mod_cast h2
  · intro h
    rw [h]
    ring

/-- Claim C3: on a cooperating host the progress callback is invoked once
after each segment with `(segments completed so far / total segments) *
100`; the reported values are monotonically non-decreasing, and a
reported value equals 100 exactly at the final segment of the final
configuration. -/
theorem processVideos_progress_reporting (env : Env)
    (configs : List VideoConfig)
    (hload : env.loadOk = true)
    (hE : ∀ s, env.extract s = .ok (.extracted s.start s.«end»))
    (hC : ∀ bs, env.combineRun bs = .ok (.combined bs))
    (hcancel : ∀ i, env.cancelAtCheck i = false)
    (hne : ∀ c ∈ configs, c.segments ≠ []) :
    progressValuesOf (processVideos env configs).1 =
      (List.range (totalSegmentsOf configs)).map
        (fun k => progVal (k + 1) (totalSegmentsOf configs)) ∧
    List.Chain' (fun a b => a ≤ b)
      (progressValuesOf (processVideos env configs).1) ∧
    (∀ i q, (progressValuesOf (processVideos env configs).1)[i]? = some q →
      (q = 100 ↔ i + 1 = totalSegmentsOf configs)) := by
  have hloop := processLoop_happy env hE hC configs 0 0
    (totalSegmentsOf configs) (fun j _ => hcancel _) hne
  have hmain : progressValuesOf (processVideos env configs).1 =
      (List.range (totalSegmentsOf configs)).map
        (fun k => progVal (k + 1) (totalSegmentsOf configs)) := by
    simp only [processVideos, hload, if_true, hloop]
    rw [show progressValuesOf (Event.flagWrite false ::
        happyLoopTrace configs 0 (totalSegmentsOf configs)) =
      progressValuesOf (happyLoopTrace configs 0 (totalSegmentsOf configs))
      from rfl]
    rw [progress_happyLoopTrace configs 0 (totalSegmentsOf configs)]
    rw [← totalSegmentsOf_eq_segsCount configs]
    rw [progList_eq_range_map]
    apply List.map_congr_left
    intro k _
    rw [show 0 + k + 1 = k + 1 from by omega]
  refine ⟨hmain, ?_, ?_⟩
  · rw [hmain, List.chain'_iff_get]
    intro i hi
    simp only [List.get_eq_getElem, List.getElem_map, List.getElem_range]
    simp only [List.length_map, List.length_range] at hi
    exact progVal_mono (totalSegmentsOf configs) (i + 1) (i + 1 + 1)
      (by omega)
  · intro i q hq
    rw [hmain] at hq
    rcases Nat.lt_or_ge i (totalSegmentsOf configs) with hi | hi
    · rw [List.getElem?_map, List.getElem?_range hi] at hq
      simp only [Option.map_some'] at hq
      have hT : 0 < totalSegmentsOf configs := by omega
      have hqv : progVal (i + 1) (totalSegmentsOf configs) = q :=
        Option.some.inj hq
      rw [← hqv]
      exact progVal_eq_100_iff (totalSegmentsOf configs) (i + 1) hT
    · rw [List.getElem?_map] at hq
      rw [List.getElem?_eq_none (by simpa using hi)] at hq
      cases hq

theorem processVideos_progress_reporting_witness :
    progressValuesOf (processVideos demoEnv demoConfigsAB).1 =
      (List.range (totalSegmentsOf demoConfigsAB)).map
        (fun k => progVal (k + 1) (totalSegmentsOf demoConfigsAB)) ∧
    List.Chain' (fun a b => a ≤ b)
      (progressValuesOf (processVideos demoEnv demoConfigsAB).1) ∧
    (∀ i q,
      (progressValuesOf (processVideos demoEnv demoConfigsAB).1)[i]? =
        some q →
      (q = 100 ↔ i + 1 = totalSegmentsOf demoConfigsAB)) :=
  processVideos_progress_reporting demoEnv demoConfigsAB rfl
    (fun _ => rfl) (fun _ => rfl) (fun _ => rfl) (by decide)


/-! ## Cancellation -/

/-- Claim C4: when the cancellation flag becomes set after `N` of the
configurations have completed (`cancelAtCheck i` is exactly `N ≤ i`) and
the host otherwise cooperates, the run fails with "Processing cancelled"
rather than returning a partial list; only the segments of the first `N`
configurations are extracted, each extraction that started also reported
completion (no segment is interrupted mid-recording), and the flag was
read exactly once per configuration iteration that started: `N` reads of
`false` followed by one read of `true`. -/
theorem processVideos_cancellation (env : Env)
    (configs : List VideoConfig) (N : Nat)
    (hload : env.loadOk = true)
    (hE : ∀ s, env.extract s = .ok (.extracted s.start s.«end»))
    (hC : ∀ bs, env.combineRun bs = .ok (.combined bs))
    (hcancel : ∀ i, env.cancelAtCheck i = decide (N ≤ i))
    (hN : N < configs.length)
    (hne : ∀ c ∈ configs, c.segments ≠ []) :
    (processVideos env configs).2 = .error "Processing cancelled" ∧
    extractCallsOf (processVideos env configs).1 =
      (allSegments (configs.take N)).map (fun s => (s.start, s.«end»)) ∧
    (progressValuesOf (processVideos env configs).1).length =
      (allSegments (configs.take N)).length ∧
    flagReadsOf (processVideos env configs).1 =
      List.replicate N false ++ [true] := by
  have hlen : (configs.take N).length = N := by
    rw [List.length_take]
    omega
  have hdropne : configs.drop N ≠ [] := by
    intro h
    have := List.drop_eq_nil_iff.mp h
    omega
  have hfalse : ∀ j, j < (configs.take N).length →
      env.cancelAtCheck (0 + j) = false := by
    intro j hj
    rw [hlen] at hj
    simp [hcancel, Nat.not_le.mpr hj]
  have htrue : env.cancelAtCheck (0 + (configs.take N).length) = true := by
    rw [hlen]
    simp [hcancel]
  have hneTake : ∀ c ∈ configs.take N, c.segments ≠ [] := by
    intro c hc
    exact hne c (List.take_subset N configs hc)
  have hloop := processLoop_cancelled env hE hC (configs.take N)
    (configs.drop N) 0 0 (totalSegmentsOf configs) hdropne hfalse htrue
    hneTake
  have hsplit : processLoop env configs 0 0 (totalSegmentsOf configs) =
      processLoop env (configs.take N ++ configs.drop N) 0 0
        (totalSegmentsOf configs) := by
    rw [List.take_append_drop]
  have hrun : processVideos env configs =
      (.flagWrite false ::
        (happyLoopTrace (configs.take N) 0 (totalSegmentsOf configs) ++
          [.flagRead true]),
        .error "Processing cancelled") := by
    simp only [processVideos, hload, if_true, hsplit, hloop]
  refine ⟨by rw [hrun], ?_, ?_, ?_⟩
  · rw [hrun]
    show extractCallsOf
      (happyLoopTrace (configs.take N) 0 (totalSegmentsOf configs) ++
        [.flagRead true]) = _
    rw [extractCallsOf_append, extract_happyLoopTrace]
    simp [extractCallsOf]
  · rw [hrun]
    show (progressValuesOf
      (happyLoopTrace (configs.take N) 0 (totalSegmentsOf configs) ++
        [.flagRead true])).length = _
    rw [progressValuesOf_append, progress_happyLoopTrace]
    have hcount : ∀ l : List VideoConfig,
        (allSegments l).length = segsCount l := by
      intro l
      induction l with
      | nil => rfl
      | cons c rest ih => simp [allSegments, segsCount, ih]
    simp [progressValuesOf, progList_length, hcount]
  · rw [hrun]
    show flagReadsOf
      (happyLoopTrace (configs.take N) 0 (totalSegmentsOf configs) ++
        [.flagRead true]) = _
    rw [flagReadsOf_append, flagReads_happyLoopTrace, hlen]
    rfl

/-- A host environment that cooperates but whose cancellation flag is set
from the second configuration check on (`cancelProcessing` was called
while the first configuration was being processed). -/
def cancelEnv : Env where
  loadOk := true
  extract := fun s => .ok (.extracted s.start s.«end»)
  combineRun := fun bs => .ok (.combined bs)
  cancelAtCheck := fun i => decide (1 ≤ i)
  format := "video/mp4"

theorem processVideos_cancellation_witness :
    (processVideos cancelEnv demoConfigsAB).2 =
      .error "Processing cancelled" ∧
    extractCallsOf (processVideos cancelEnv demoConfigsAB).1 =
      (allSegments (demoConfigsAB.take 1)).map
        (fun s => (s.start, s.«end»)) ∧
    (progressValuesOf (processVideos cancelEnv demoConfigsAB).1).length =
      (allSegments (demoConfigsAB.take 1)).length ∧
    flagReadsOf (processVideos cancelEnv demoConfigsAB).1 =
      List.replicate 1 false ++ [true] :=
  processVideos_cancellation cancelEnv demoConfigsAB 1 rfl
    (fun _ => rfl) (fun _ => rfl) (fun _ => rfl) (by decide) (by decide)

/-! ## Failure propagation -/

theorem extractSegments_ok_all :
    ∀ (env : Env) (segs : List VideoSegment) (p T : Nat)
      (bl : List Blob) (p' : Nat),
    (extractSegments env segs p T).2 = .ok (bl, p') →
    ∀ s ∈ segs, ∃ b, env.extract s = .ok b := by
  intro env segs
  induction segs with
  | nil => intro p T bl p' _ s hs; cases hs
  | cons seg rest ih =>
    intro p T bl p' h s hs
    simp only [extractSegments] at h
    rcases he : env.extract seg with e | b
    · rw [he] at h
      cases h
    · rw [he] at h
      simp only at h
      rcases hr : (extractSegments env rest (p + 1) T).2 with e' | pr
      · rw [hr] at h
        cases h
      · rcases List.mem_cons.mp hs with hs | hs
        · subst hs
          exact ⟨b, he⟩
        · exact ih (p + 1) T pr.1 pr.2 (by rw [hr]) s hs

theorem processOneConfig_ok_all (env : Env) (c : VideoConfig)
    (p T : Nat) (out : OutputVideo) (p' : Nat) :
    (processOneConfig env c p T).2 = .ok (out, p') →
    ∀ s ∈ c.segments, ∃ b, env.extract s = .ok b := by
  intro h s hs
  simp only [processOneConfig] at h
  rcases hr : (extractSegments env c.segments p T).2 with e | pr
  · rw [hr] at h
    cases h
  · exact extractSegments_ok_all env c.segments p T pr.1 pr.2
      (by rw [hr]) s hs

theorem processLoop_ok_all (env : Env) :
    ∀ (configs : List VideoConfig) (i p T : Nat)
      (outs : List OutputVideo),
    (processLoop env configs i p T).2 = .ok outs →
    outs.length = configs.length ∧
      ∀ c ∈ configs, ∀ s ∈ c.segments, ∃ b, env.extract s = .ok b := by
  intro configs
  induction configs with
  | nil =>
    intro i p T outs h
    simp only [processLoop] at h
    cases h
    exact ⟨rfl, fun c hc => absurd hc (List.not_mem_nil c)⟩
  | cons c rest ih =>
    intro i p T outs h
    simp only [processLoop] at h
    rcases hcan : env.cancelAtCheck i with _ | _
    · rw [hcan] at h
      simp only [Bool.false_eq_true, if_false] at h
      rcases hone : (processOneConfig env c p T).2 with e | op
      · rw [hone] at h
        cases h
      · rw [hone] at h
        simp only at h
        rcases hnext : (processLoop env rest (i + 1) op.2 T).2 with
          e' | outs'
        · rw [hnext] at h
          cases h
        · rw [hnext] at h
          simp only [Except.ok.injEq] at h
          subst h
          have hrest := ih (i + 1) op.2 T outs' (by rw [hnext])
          refine ⟨by simp [hrest.1], ?_⟩
          intro c0 hc0 s hs
          rcases List.mem_cons.mp hc0 with hc0 | hc0
          · subst hc0
            exact processOneConfig_ok_all env c0 p T op.1 op.2
              (by rw [hone]) s hs
          · exact hrest.2 c0 hc0 s hs
    · rw [hcan] at h
      simp only [if_true] at h
      cases h

/-- Claim C5: if any configuration's processing fails, the whole batch
fails — a successful result implies the source loaded and every segment
extraction of every configuration succeeded, and the result then covers
every configuration (no partial list is ever returned); a load failure
surfaces as the single descriptive error "Failed to load video". -/
theorem processVideos_no_partial_results (env : Env)
    (configs : List VideoConfig) :
    (∀ outs, (processVideos env configs).2 = .ok outs →
      env.loadOk = true ∧ outs.length = configs.length ∧
      ∀ c ∈ configs, ∀ s ∈ c.segments, ∃ b, env.extract s = .ok b) ∧
    (env.loadOk = false →
      processVideos env configs =
        ([.flagWrite false], .error "Failed to load video")) := by
  constructor
  · intro outs h
    rcases hl : env.loadOk with _ | _
    · rw [processVideos, hl] at h
      simp at h
    · rw [processVideos, hl] at h
      simp only [if_true] at h
      have := processLoop_ok_all env configs 0 0
        (totalSegmentsOf configs) outs h
      exact ⟨rfl, this.1, this.2⟩
  · intro hl
    simp [processVideos, hl]

/-- The outputs of the demo run used to witness claim C5. -/
def demoOuts : List OutputVideo :=
  [⟨"Clip A", .extracted 0 5, "video/mp4"⟩]

theorem processVideos_no_partial_results_witness :
    demoEnv.loadOk = true ∧ demoOuts.length = demoConfigs.length ∧
    ∀ c ∈ demoConfigs, ∀ s ∈ c.segments,
      ∃ b, demoEnv.extract s = .ok b :=
  (processVideos_no_partial_results demoEnv demoConfigs).1 demoOuts rfl


/-! ## The cancellation flag is written once, at the start of the run -/

theorem flagWrites_extractSegments (env : Env) :
    ∀ (segs : List VideoSegment) (p T : Nat),
    flagWritesOf (extractSegments env segs p T).1 = [] := by
  intro segs
  induction segs with
  | nil => intro p T; rfl
  | cons seg rest ih =>
    intro p T
    simp only [extractSegments]
    rcases he : env.extract seg with e | b
    · rfl
    · simp only [flagWritesOf]
      exact ih (p + 1) T

theorem flagWrites_processOneConfig (env : Env) (c : VideoConfig)
    (p T : Nat) :
    flagWritesOf (processOneConfig env c p T).1 = [] := by
  simp only [processOneConfig]
  rcases hr : (extractSegments env c.segments p T).2 with e | pr
  · exact flagWrites_extractSegments env c.segments p T
  · rcases pr with ⟨bl, p'⟩
    match bl with
    | [b] => exact flagWrites_extractSegments env c.segments p T
    | [] =>
      rw [flagWritesOf_append, flagWrites_extractSegments env c.segments p T]
      rfl
    | b₁ :: b₂ :: bs =>
      rw [flagWritesOf_append, flagWrites_extractSegments env c.segments p T]
      rfl

theorem flagWrites_processLoop (env : Env) :
    ∀ (configs : List VideoConfig) (i p T : Nat),
    flagWritesOf (processLoop env configs i p T).1 = [] := by
  intro configs
  induction configs with
  | nil => intro i p T; rfl
  | cons c rest ih =>
    intro i p T
    simp only [processLoop]
    rcases hcan : env.cancelAtCheck i with _ | _
    · simp only [Bool.false_eq_true, if_false]
      rcases hone : (processOneConfig env c p T).2 with e | op
      · have h1 := flagWrites_processOneConfig env c p T
        simp only [flagWritesOf]
        exact h1
      · simp only [flagWritesOf, List.append_eq, flagWritesOf_append,
          flagWrites_processOneConfig env c p T, ih (i + 1) op.2 T]
        rfl
    · rfl

/-- Claim C6 counterexample: on a concrete run `processVideos` does perform
a write to the module cancellation flag (it resets it to `false` at the
start), so the claim that the processing routine never writes the flag is
false. -/
theorem processVideos_writes_flag_counterexample :
    flagWritesOf (processVideos demoEnv demoConfigs).1 = [false] ∧
    ([false] : List Bool) ≠ ([] : List Bool) :=
  ⟨rfl, by decide⟩

/-- Claim C6, amended: `processVideos` writes the cancellation flag exactly
once per run — the initial reset to `false`, emitted before any other
event; during the rest of the run (the configuration loop) the flag is
only read, and `cancelProcessing` performs the only `true` write. -/
theorem processVideos_single_flag_write :
    (∀ (env : Env) (configs : List VideoConfig),
      flagWritesOf (processVideos env configs).1 = [false] ∧
      (processVideos env configs).1.head? = some (.flagWrite false)) ∧
    (∀ b, cancelProcessing b = (true, [.flagWrite true])) := by
  constructor
  · intro env configs
    rcases hl : env.loadOk with _ | _
    · constructor
      · simp only [processVideos, hl, Bool.false_eq_true, if_false]
        rfl
      · simp [processVideos, hl]
    · constructor
      · simp only [processVideos, hl, if_true]
        simp only [flagWritesOf]
        rw [flagWrites_processLoop env configs 0 0 (totalSegmentsOf configs)]
      · simp [processVideos, hl]
  · intro b
    rfl

/-! ## Upload surface: the MIME check differs between the two paths -/

/-- Claim C7 counterexample: a file with MIME type "text/plain" delivered
through the file picker is passed to the upload callback even though its
type does not start with "video/" — the claimed iff fails on the picker
path. -/
theorem filePicker_accepts_nonvideo_counterexample :
    handleFileChange [⟨"text/plain"⟩] = some ⟨"text/plain"⟩ ∧
    strStartsWith "text/plain" "video/" = false :=
  ⟨rfl, by decide⟩

/-- Claim C7, amended: on the drag-drop path the upload callback is invoked
exactly when the first dropped file's MIME type starts with "video/"; on
the file-picker path the callback is invoked for the first selected file
unconditionally, with no MIME-type check in code (the `accept="video/*"`
attribute only configures the picker dialog). -/
theorem upload_callback_mime_conditions (files : List DomFile)
    (f : DomFile) :
    (handleDrop files = some f ↔
      files.head? = some f ∧ strStartsWith f.type "video/" = true) ∧
    (handleFileChange files = some f ↔ files.head? = some f) := by
  cases files with
  | nil =>
    constructor
    · simp [handleDrop]
    · simp [handleFileChange]
  | cons g rest =>
    constructor
    · by_cases hv : strStartsWith g.type "video/" = true
      · simp only [handleDrop, hv, if_true, List.head?]
        constructor
        · intro h
          have : g = f := Option.some.inj h
          subst this
          exact ⟨rfl, hv⟩
        · intro h
          exact h.1
      · simp only [handleDrop, hv, if_false, List.head?]
        constructor
        · intro h
          cases h
        · rintro ⟨h1, h2⟩
          have : g = f := Option.some.inj h1
          subst this
          exact absurd h2 hv
    · simp [handleFileChange, List.head?]

/-! ## Download names -/

/-- Claim C8: for every downloadable result whose `format` field is not the
empty string (every result `processVideos` produces carries a nonempty
format), the download name computed by `handleDownload` is the configured
name plus the extension inferred from the `format` field when present,
else from the blob's declared media type, defaulting to `mp4` when no
known marker matches. -/
theorem download_name_follows_spec (video : ResultVideo)
    (hfmt : video.format ≠ some "") :
    handleDownloadName video = claimedDownloadName video := by
  rcases hv : video.format with _ | f
  · simp only [handleDownloadName, claimedDownloadName, hv, formatTruthy,
      Bool.false_eq_true, if_false]
    by_cases hbt : video.blobType = ""
    · rw [hbt]
      simp [show strIncludes "" "webm" = false from rfl,
        show strIncludes "" "ogg" = false from rfl,
        show strIncludes "" "quicktime" = false from rfl]
    · simp [hbt]
  · have hf : f ≠ "" := by
      intro h
      rw [h] at hv
      exact hfmt hv
    simp only [handleDownloadName, claimedDownloadName, hv, formatTruthy,
      Option.getD_some]
    simp [hf]

theorem download_name_follows_spec_witness :
    (some "video/webm" ≠ some ("" : String)) ∧
    handleDownloadName ⟨"Clip A", some "video/webm", "video/mp4"⟩ =
      claimedDownloadName ⟨"Clip A", some "video/webm", "video/mp4"⟩ :=
  ⟨by decide,
    download_name_follows_spec ⟨"Clip A", some "video/webm", "video/mp4"⟩
      (by decide)⟩

end VideoSplitter
